import Mathlib

/-!
Shallow embedding of the session store and streaming response chunker of
`app/api/chat.py` (class `SessionManager` and the generator
`generate_openai_stream`).  Timestamps are seconds as natural numbers; the
Python dict `self.sessions` is modelled as an insertion-ordered association
list, matching dict iteration order.
-/

namespace CalChat

/-- Role of a chat message: the store records human (user) and AI (assistant)
messages only. -/
inductive Role where
  | user
  | assistant
deriving DecidableEq, Repr

/-- Single chat message: role tag plus text content. -/
structure Message where
  role : Role
  content : String
deriving DecidableEq, Repr

/-- One value of the `self.sessions` dict: a conversation history together
with the `last_access` timestamp. -/
structure SessionRecord where
  history : List Message
  last_access : Nat
deriving DecidableEq, Repr

/-- The session mapping `{session_id: record}` as an insertion-ordered
association list. -/
abbrev Store := List (String × SessionRecord)

/-- Dict lookup: the first (in a well-formed store, unique) entry with the
given key. -/
def lookupRecord : Store → String → Option SessionRecord
  | [], _ => none
  | p :: rest, sid => if p.1 = sid then some p.2 else lookupRecord rest sid

/-- State built by `SessionManager.__init__`. -/
structure SessionManager where
  sessions : Store
  expiry_hours : Nat
  max_sessions : Nat
deriving DecidableEq, Repr

/-- Expiry duration in seconds, `expiry_seconds = self.expiry_hours * 3600`. -/
def SessionManager.expiry_seconds (m : SessionManager) : Nat :=
  m.expiry_hours * 3600

/-- Sweep of `SessionManager._clean_expired_sessions`: delete every record
with `(current_time - last_access) > expiry_seconds`, keeping dict order. -/
def clean_expired_sessions (m : SessionManager) (now : Nat) : SessionManager :=
  { m with sessions :=
      m.sessions.filter (fun p => decide (now - p.2.last_access ≤ m.expiry_seconds)) }

/-- Result of `min(self.sessions.keys(), key=lambda sid: last_access)`: the
first-encountered entry with minimal `last_access` (Python `min` keeps the
earlier element on ties). -/
def minByLastAccess : Store → Option (String × SessionRecord)
  | [] => none
  | p :: rest =>
    match minByLastAccess rest with
    | none => some p
    | some q => if q.2.last_access < p.2.last_access then some q else some p

/-- Eviction step `SessionManager._remove_oldest_session`: delete the entry
with the oldest `last_access`, or do nothing on an empty store. -/
def remove_oldest_session (m : SessionManager) : SessionManager :=
  match minByLastAccess m.sessions with
  | none => m
  | some q => { m with sessions := m.sessions.eraseP (fun p => decide (p.1 = q.1)) }

/-- In-place update `self.sessions[session_id]["last_access"] = time.time()`,
preserving the entry's position. -/
def touchStore (l : Store) (sid : String) (now : Nat) : Store :=
  l.map (fun p => if p.1 = sid then (p.1, { p.2 with last_access := now }) else p)

/-- Create-new block of `get_history` (lines 147-158 of `chat.py`), applied to
the already-swept manager: evict the oldest record when
`len(sessions) >= max_sessions`, then insert a fresh empty history with
`last_access = now` and return it. -/
def admit_new_session (m1 : SessionManager) (sid : String) (now : Nat) :
    SessionManager × List Message :=
  if m1.max_sessions ≤ m1.sessions.length then
    ({ remove_oldest_session m1 with
        sessions := (remove_oldest_session m1).sessions ++ [(sid, (⟨[], now⟩ : SessionRecord))] }, [])
  else
    ({ m1 with sessions := m1.sessions ++ [(sid, (⟨[], now⟩ : SessionRecord))] }, [])

/-- Operation `SessionManager.get_history`: sweep expired records, then either
return the existing history with refreshed `last_access`, or (for an unseen
identifier) run the create-new block `admit_new_session`. -/
def get_history (m : SessionManager) (sid : String) (now : Nat) :
    SessionManager × List Message :=
  match lookupRecord (clean_expired_sessions m now).sessions sid with
  | some r =>
    ({ clean_expired_sessions m now with
        sessions := touchStore (clean_expired_sessions m now).sessions sid now },
      r.history)
  | none => admit_new_session (clean_expired_sessions m now) sid now

/-- Iterated `get_history` calls, one per listed pair of identifier and
timestamp. -/
def runGets (m : SessionManager) (ops : List (String × Nat)) : SessionManager :=
  ops.foldl (fun acc op => (get_history acc op.1 op.2).1) m

/-- Iterated `get_history` calls for a list of identifiers at one fixed
timestamp (the N+1-insertions scenario). -/
def insertAll (m : SessionManager) (ids : List String) (now : Nat) : SessionManager :=
  ids.foldl (fun acc sid => (get_history acc sid now).1) m

/-- Well-formedness of the store model: Python dict keys are unique. -/
def WFStore (l : Store) : Prop := (l.map Prod.fst).Nodup

instance decidableWFStore (l : Store) : Decidable (WFStore l) :=
  inferInstanceAs (Decidable ((l.map Prod.fst).Nodup))

/-- Test `char in ['.', '!', '?', '\n']` of the streaming loop. -/
def isTerminator (c : Char) : Bool :=
  c = '.' || c = '!' || c = '?' || c = '\n'

/-- Character-level split loop of `generate_openai_stream`: append each
character to the current fragment and close the fragment when the character
is a sentence terminator or the fragment length has reached 80; any non-empty
remainder becomes a final fragment. -/
def chunkChars : List Char → List Char → List (List Char)
  | [], cur => if cur = [] then [] else [cur]
  | c :: rest, cur =>
    if isTerminator c = true ∨ 80 ≤ (cur ++ [c]).length then
      (cur ++ [c]) :: chunkChars rest []
    else
      chunkChars rest (cur ++ [c])

/-- Response Chunker on strings (the `sentences` list computed from
`ai_message`). -/
def chunk (text : String) : List String :=
  (chunkChars text.data []).map (fun cs => String.mk cs)

/-- Outcome of the fallible reasoning-engine call
`agent_with_chat_history.ainvoke`. -/
inductive EngineResult where
  | success (output : String)
  | failure (err : String)
deriving DecidableEq, Repr

/-- In-place `message_history.add_message(msg)` on the record owned by `sid`
(does not touch `last_access`). -/
def appendMsgStore (l : Store) (sid : String) (msg : Message) : Store :=
  l.map (fun p =>
    if p.1 = sid then (p.1, { p.2 with history := p.2.history ++ [msg] }) else p)

/-- One turn of `generate_openai_stream` in raw (non-SSE) framing: fetch or
create the session history, append the user message, then on engine success
append the assistant message and chunk it, and on engine failure emit the
single error fragment. -/
def processTurn (m : SessionManager) (sid content : String) (now : Nat)
    (engine : EngineResult) : SessionManager × List String :=
  let m1 := (get_history m sid now).1
  let m2 := { m1 with sessions := appendMsgStore m1.sessions sid ⟨Role.user, content⟩ }
  match engine with
  | .success ai =>
    ({ m2 with sessions := appendMsgStore m2.sessions sid ⟨Role.assistant, ai⟩ },
      chunk ai)
  | .failure e =>
    (m2, ["Error processing request: " ++ e])

/-! Chunker lemmas. -/

theorem chunkChars_cons (c : Char) (rest cur : List Char) :
    chunkChars (c :: rest) cur =
      if isTerminator c = true ∨ 80 ≤ (cur ++ [c]).length then
        (cur ++ [c]) :: chunkChars rest []
      else chunkChars rest (cur ++ [c]) := rfl

theorem chunkChars_flatten (cs : List Char) :
    ∀ cur, (chunkChars cs cur).flatten = cur ++ cs := by
  induction cs with
  | nil =>
    intro cur
    by_cases h : cur = [] <;> simp [chunkChars, h]
  | cons c rest ih =>
    intro cur
    by_cases h : isTerminator c = true ∨ 80 ≤ (cur ++ [c]).length
    · rw [chunkChars_cons, if_pos h, List.flatten_cons, ih]
      simp
    · rw [chunkChars_cons, if_neg h, ih]
      simp

theorem mk_data_eq (s : String) : String.mk s.data = s := rfl

theorem foldl_append_mk (l : List (List Char)) :
    ∀ s : String, (l.map String.mk).foldl (fun r t => r ++ t) s =
      String.mk (s.data ++ l.flatten) := by
  induction l with
  | nil => intro s; simp [mk_data_eq]
  | cons a L ih =>
    intro s
    simp only [List.map_cons, List.foldl_cons, List.flatten_cons, ih]
    have h1 : (s ++ String.mk a).data = s.data ++ a := String.data_append s (String.mk a)
    rw [h1, List.append_assoc]

theorem chunkChars_frag_bounds (cs : List Char) :
    ∀ cur, cur.length < 80 → ∀ f ∈ chunkChars cs cur, f ≠ [] ∧ f.length ≤ 80 := by
  induction cs with
  | nil =>
    intro cur hcur f hf
    by_cases h : cur = []
    · simp [chunkChars, h] at hf
    · simp [chunkChars, h] at hf
      subst hf
      exact ⟨h, Nat.le_of_lt hcur⟩
  | cons c rest ih =>
    intro cur hcur f hf
    by_cases h : isTerminator c = true ∨ 80 ≤ (cur ++ [c]).length
    · simp only [chunkChars, if_pos h, List.mem_cons] at hf
      rcases hf with rfl | hf
      · refine ⟨by simp, ?_⟩
        simp only [List.length_append, List.length_cons, List.length_nil]
        omega
      · exact ih [] (by simp) f hf
    · simp only [chunkChars, if_neg h] at hf
      have hlen : (cur ++ [c]).length < 80 := by
        rcases Nat.lt_or_ge (cur ++ [c]).length 80 with h2 | h2
        · exact h2
        · exact absurd (Or.inr h2) h
      exact ih (cur ++ [c]) hlen f hf

theorem chunkChars_closed_front (cs : List Char) :
    ∀ cur, cur.length < 80 → ∀ f ∈ (chunkChars cs cur).dropLast,
      (∃ c, f.getLast? = some c ∧ isTerminator c = true) ∨ f.length = 80 := by
  induction cs with
  | nil =>
    intro cur hcur f hf
    by_cases h : cur = [] <;> simp [chunkChars, h] at hf
  | cons c rest ih =>
    intro cur hcur f hf
    by_cases h : isTerminator c = true ∨ 80 ≤ (cur ++ [c]).length
    · simp only [chunkChars, if_pos h] at hf
      have hfrag : (∃ d, (cur ++ [c]).getLast? = some d ∧ isTerminator d = true) ∨
          (cur ++ [c]).length = 80 := by
        rcases h with h | h
        · exact Or.inl ⟨c, List.getLast?_concat cur, h⟩
        · right
          simp only [List.length_append, List.length_cons, List.length_nil] at h ⊢
          omega
      rcases hrec : chunkChars rest [] with _ | ⟨g, gs⟩
      · rw [hrec] at hf
        simp at hf
      · rw [hrec] at hf
        rw [List.dropLast_cons₂] at hf
        rcases List.mem_cons.mp hf with rfl | hf2
        · exact hfrag
        · have := ih [] (by simp) f
          rw [hrec] at this
          exact this hf2
    · simp only [chunkChars, if_neg h] at hf
      have hlen : (cur ++ [c]).length < 80 := by
        rcases Nat.lt_or_ge (cur ++ [c]).length 80 with h2 | h2
        · exact h2
        · exact absurd (Or.inr h2) h
      exact ih (cur ++ [c]) hlen f hf

theorem chunkChars_noTerm_ge (cs : List Char) :
    ∀ cur, cur.length < 80 → (∀ c ∈ cs, isTerminator c = false) →
      80 ≤ cur.length + cs.length →
      chunkChars cs cur =
        (cur ++ cs.take (80 - cur.length)) :: chunkChars (cs.drop (80 - cur.length)) [] := by
  induction cs with
  | nil =>
    intro cur hcur _ hlen
    simp only [List.length_nil, Nat.add_zero] at hlen
    omega
  | cons c rest ih =>
    intro cur hcur hterm hlen
    have hc : isTerminator c = false := hterm c (List.mem_cons_self c rest)
    by_cases h80 : 80 ≤ (cur ++ [c]).length
    · have hcur79 : cur.length = 79 := by
        simp only [List.length_append, List.length_cons, List.length_nil] at h80
        omega
      rw [chunkChars_cons, if_pos (Or.inr h80)]
      have h1 : 80 - cur.length = 1 := by omega
      rw [h1]
      simp
    · have hguard : ¬ (isTerminator c = true ∨ 80 ≤ (cur ++ [c]).length) := by
        rintro (h1 | h2)
        · rw [hc] at h1
          exact Bool.false_ne_true h1
        · exact h80 h2
      rw [chunkChars_cons, if_neg hguard]
      have hlen2 : (cur ++ [c]).length < 80 := by
        rcases Nat.lt_or_ge (cur ++ [c]).length 80 with h2 | h2
        · exact h2
        · exact absurd h2 h80
      have hge2 : 80 ≤ (cur ++ [c]).length + rest.length := by
        simp only [List.length_append, List.length_cons, List.length_nil] at *
        omega
      rw [ih (cur ++ [c]) hlen2 (fun d hd => hterm d (List.mem_cons_of_mem c hd)) hge2]
      have hsub : 80 - cur.length = (80 - (cur ++ [c]).length) + 1 := by
        simp only [List.length_append, List.length_cons, List.length_nil]
        omega
      rw [hsub]
      simp only [List.take_succ_cons, List.drop_succ_cons, List.append_assoc,
        List.singleton_append, List.length_append, List.length_cons, List.length_nil]

/-! Store lemmas: lookup, sweep, touch, append, eviction. -/

theorem lookupRecord_eq_none {l : Store} {s : String} :
    lookupRecord l s = none ↔ s ∉ l.map Prod.fst := by
  induction l with
  | nil => simp [lookupRecord]
  | cons p rest ih =>
    by_cases h : p.1 = s
    · simp [lookupRecord, h]
    · simp [lookupRecord, h, ih, Ne.symm h]

theorem lookupRecord_mem {l : Store} {s : String} {r : SessionRecord}
    (h : lookupRecord l s = some r) : (s, r) ∈ l := by
  induction l with
  | nil => simp [lookupRecord] at h
  | cons p rest ih =>
    by_cases hp : p.1 = s
    · rw [lookupRecord, if_pos hp] at h
      have : p = (s, r) := by
        cases p
        simp_all
      rw [← this]
      exact List.mem_cons_self p rest
    · rw [lookupRecord, if_neg hp] at h
      exact List.mem_cons_of_mem p (ih h)

theorem mem_lookupRecord {l : Store} {s : String} {r : SessionRecord}
    (hWF : WFStore l) (h : (s, r) ∈ l) : lookupRecord l s = some r := by
  induction l with
  | nil => simp at h
  | cons p rest ih =>
    rcases List.mem_cons.mp h with rfl | hmem
    · rw [lookupRecord, if_pos rfl]
    · have hkeys : p.1 ∉ rest.map Prod.fst := by
        have := hWF
        simp only [WFStore, List.map_cons, List.nodup_cons] at this
        exact this.1
      have hne : p.1 ≠ s := by
        intro hcontra
        apply hkeys
        rw [hcontra]
        exact List.mem_map_of_mem Prod.fst hmem
      rw [lookupRecord, if_neg hne]
      have hWFrest : WFStore rest := by
        have := hWF
        simp only [WFStore, List.map_cons, List.nodup_cons] at this
        exact this.2
      exact ih hWFrest hmem

theorem lookupRecord_append_of_none {l₁ l₂ : Store} {s : String}
    (h : lookupRecord l₁ s = none) :
    lookupRecord (l₁ ++ l₂) s = lookupRecord l₂ s := by
  induction l₁ with
  | nil => simp
  | cons p rest ih =>
    by_cases hp : p.1 = s
    · rw [lookupRecord, if_pos hp] at h
      exact absurd h (by simp)
    · rw [lookupRecord, if_neg hp] at h
      rw [List.cons_append, lookupRecord, if_neg hp]
      exact ih h

theorem lookupRecord_append_of_some {l₁ l₂ : Store} {s : String} {r : SessionRecord}
    (h : lookupRecord l₁ s = some r) :
    lookupRecord (l₁ ++ l₂) s = some r := by
  induction l₁ with
  | nil => simp [lookupRecord] at h
  | cons p rest ih =>
    by_cases hp : p.1 = s
    · rw [lookupRecord, if_pos hp] at h
      rw [List.cons_append, lookupRecord, if_pos hp]
      exact h
    · rw [lookupRecord, if_neg hp] at h
      rw [List.cons_append, lookupRecord, if_neg hp]
      exact ih h

theorem lookupRecord_append_cases {l₁ l₂ : Store} {s : String} {r : SessionRecord}
    (h : lookupRecord (l₁ ++ l₂) s = some r) :
    lookupRecord l₁ s = some r ∨ (lookupRecord l₁ s = none ∧ lookupRecord l₂ s = some r) := by
  rcases hl : lookupRecord l₁ s with _ | r₁
  · right
    rw [lookupRecord_append_of_none hl] at h
    exact ⟨rfl, h⟩
  · left
    exact (lookupRecord_append_of_some hl).symm.trans h

theorem lookupRecord_touch_ne {l : Store} {sid s : String} {now : Nat}
    (h : s ≠ sid) : lookupRecord (touchStore l sid now) s = lookupRecord l s := by
  induction l with
  | nil => rfl
  | cons p rest ih =>
    rw [touchStore, List.map_cons]
    by_cases hp : p.1 = sid
    · have hne : ¬ (p.1 = s) := fun hc => h (hc ▸ hp)
      rw [if_pos hp, lookupRecord, if_neg hne, lookupRecord, if_neg hne]
      exact ih
    · rw [if_neg hp]
      by_cases hps : p.1 = s
      · rw [lookupRecord, if_pos hps, lookupRecord, if_pos hps]
      · rw [lookupRecord, if_neg hps, lookupRecord, if_neg hps]
        exact ih

theorem lookupRecord_touch_self {l : Store} {sid : String} {now : Nat} :
    lookupRecord (touchStore l sid now) sid =
      (lookupRecord l sid).map (fun r => { r with last_access := now }) := by
  induction l with
  | nil => rfl
  | cons p rest ih =>
    rw [touchStore, List.map_cons]
    by_cases hp : p.1 = sid
    · rw [if_pos hp, lookupRecord, if_pos hp, lookupRecord, if_pos hp]
      rfl
    · rw [if_neg hp, lookupRecord, if_neg hp, lookupRecord, if_neg hp]
      exact ih

theorem lookupRecord_appendMsg_ne {l : Store} {sid s : String} {msg : Message}
    (h : s ≠ sid) : lookupRecord (appendMsgStore l sid msg) s = lookupRecord l s := by
  induction l with
  | nil => rfl
  | cons p rest ih =>
    rw [appendMsgStore, List.map_cons]
    by_cases hp : p.1 = sid
    · have hne : ¬ (p.1 = s) := fun hc => h (hc ▸ hp)
      rw [if_pos hp, lookupRecord, if_neg hne, lookupRecord, if_neg hne]
      exact ih
    · rw [if_neg hp]
      by_cases hps : p.1 = s
      · rw [lookupRecord, if_pos hps, lookupRecord, if_pos hps]
      · rw [lookupRecord, if_neg hps, lookupRecord, if_neg hps]
        exact ih

theorem lookupRecord_appendMsg_self {l : Store} {sid : String} {msg : Message} :
    lookupRecord (appendMsgStore l sid msg) sid =
      (lookupRecord l sid).map (fun r => { r with history := r.history ++ [msg] }) := by
  induction l with
  | nil => rfl
  | cons p rest ih =>
    rw [appendMsgStore, List.map_cons]
    by_cases hp : p.1 = sid
    · rw [if_pos hp, lookupRecord, if_pos hp, lookupRecord, if_pos hp]
      rfl
    · rw [if_neg hp, lookupRecord, if_neg hp, lookupRecord, if_neg hp]
      exact ih

theorem lookupRecord_filter_keep {l : Store} {s : String} {r : SessionRecord}
    (q : String × SessionRecord → Bool) (h : lookupRecord l s = some r)
    (hq : q (s, r) = true) :
    lookupRecord (l.filter q) s = some r := by
  induction l with
  | nil => simp [lookupRecord] at h
  | cons p rest ih =>
    by_cases hp : p.1 = s
    · rw [lookupRecord, if_pos hp] at h
      have hpr : p = (s, r) := by
        cases p
        simp_all
      rw [hpr, List.filter_cons, if_pos (by simp [hq]), lookupRecord, if_pos rfl]
    · rw [lookupRecord, if_neg hp] at h
      rw [List.filter_cons]
      by_cases hqp : q p = true
      · rw [if_pos (by simp [hqp]), lookupRecord, if_neg hp]
        exact ih h
      · rw [if_neg (by simp [hqp])]
        exact ih h

theorem keys_unique {l : Store} (hWF : WFStore l) {s : String} {a b : SessionRecord}
    (ha : (s, a) ∈ l) (hb : (s, b) ∈ l) : a = b := by
  have h1 := mem_lookupRecord hWF ha
  have h2 := mem_lookupRecord hWF hb
  rw [h1] at h2
  exact Option.some.inj h2

theorem lookupRecord_filter_drop {l : Store} {s : String} {r : SessionRecord}
    (q : String × SessionRecord → Bool) (hWF : WFStore l)
    (h : lookupRecord l s = some r) (hq : q (s, r) = false) :
    lookupRecord (l.filter q) s = none := by
  rw [lookupRecord_eq_none]
  intro hcontra
  rcases List.mem_map.mp hcontra with ⟨p, hp, hfst⟩
  rcases List.mem_filter.mp hp with ⟨hmem, hqp⟩
  have hpr : p = (s, p.2) := by
    cases p
    simp_all
  rw [hpr] at hmem
  have hrec := keys_unique hWF hmem (lookupRecord_mem h)
  rw [hpr, hrec] at hqp
  rw [hq] at hqp
  exact Bool.false_ne_true hqp

theorem lookupRecord_filter_none {l : Store} {s : String}
    (q : String × SessionRecord → Bool) (h : lookupRecord l s = none) :
    lookupRecord (l.filter q) s = none := by
  rw [lookupRecord_eq_none] at h ⊢
  intro hcontra
  rcases List.mem_map.mp hcontra with ⟨p, hp, hfst⟩
  exact h (List.mem_map.mpr ⟨p, (List.filter_sublist l).subset hp, hfst⟩)

theorem lookupRecord_of_sublist {l' l : Store} {s : String} {r : SessionRecord}
    (hsub : List.Sublist l' l) (hWF : WFStore l) (h : lookupRecord l' s = some r) :
    lookupRecord l s = some r :=
  mem_lookupRecord hWF (hsub.subset (lookupRecord_mem h))

theorem lookupRecord_none_of_sublist {l' l : Store} {s : String}
    (hsub : List.Sublist l' l) (h : lookupRecord l s = none) :
    lookupRecord l' s = none := by
  rw [lookupRecord_eq_none] at h ⊢
  intro hc
  exact h ((hsub.map Prod.fst).subset hc)

theorem minByLastAccess_eq_none {l : Store} : minByLastAccess l = none ↔ l = [] := by
  cases l with
  | nil => simp [minByLastAccess]
  | cons p rest =>
    simp only [minByLastAccess]
    rcases h : minByLastAccess rest with _ | q
    · simp
    · by_cases hlt : q.2.last_access < p.2.last_access <;> simp [hlt]

theorem minByLastAccess_mem {l : Store} :
    ∀ {q : String × SessionRecord}, minByLastAccess l = some q → q ∈ l := by
  induction l with
  | nil => intro q h; simp [minByLastAccess] at h
  | cons p rest ih =>
    intro q h
    rw [minByLastAccess] at h
    rcases hrec : minByLastAccess rest with _ | q'
    · rw [hrec] at h
      simp at h
      simp [h]
    · rw [hrec] at h
      change (if q'.2.last_access < p.2.last_access then some q' else some p) = some q at h
      by_cases hlt : q'.2.last_access < p.2.last_access
      · rw [if_pos hlt] at h
        have hq : q' = q := by simpa using h
        exact List.mem_cons_of_mem p (hq ▸ ih hrec)
      · rw [if_neg hlt] at h
        have hq : p = q := by simpa using h
        simp [← hq]

theorem minByLastAccess_min {l : Store} :
    ∀ {q : String × SessionRecord}, minByLastAccess l = some q →
      ∀ p ∈ l, q.2.last_access ≤ p.2.last_access := by
  induction l with
  | nil => intro q h; simp [minByLastAccess] at h
  | cons p rest ih =>
    intro q h x hx
    rw [minByLastAccess] at h
    rcases hrec : minByLastAccess rest with _ | q'
    · rw [hrec] at h
      have hrest : rest = [] := minByLastAccess_eq_none.mp hrec
      have hq : p = q := by simpa using h
      subst hrest
      rcases List.mem_cons.mp hx with rfl | hx
      · exact hq ▸ Nat.le_refl _
      · simp at hx
    · rw [hrec] at h
      change (if q'.2.last_access < p.2.last_access then some q' else some p) = some q at h
      by_cases hlt : q'.2.last_access < p.2.last_access
      · rw [if_pos hlt] at h
        have hq : q' = q := by simpa using h
        subst hq
        rcases List.mem_cons.mp hx with rfl | hx
        · exact Nat.le_of_lt hlt
        · exact ih hrec x hx
      · rw [if_neg hlt] at h
        have hq : p = q := by simpa using h
        subst hq
        rcases List.mem_cons.mp hx with rfl | hx
        · exact Nat.le_refl _
        · exact Nat.le_trans (Nat.le_of_not_lt hlt) (ih hrec x hx)

theorem remove_oldest_sublist (m : SessionManager) :
    List.Sublist (remove_oldest_session m).sessions m.sessions := by
  rw [remove_oldest_session]
  rcases h : minByLastAccess m.sessions with _ | q
  · exact List.Sublist.refl _
  · exact List.eraseP_sublist m.sessions

theorem remove_oldest_fields (m : SessionManager) :
    (remove_oldest_session m).expiry_hours = m.expiry_hours ∧
      (remove_oldest_session m).max_sessions = m.max_sessions := by
  rw [remove_oldest_session]
  rcases h : minByLastAccess m.sessions with _ | q
  · exact ⟨rfl, rfl⟩
  · exact ⟨rfl, rfl⟩

theorem keys_touch (l : Store) (sid : String) (now : Nat) :
    (touchStore l sid now).map Prod.fst = l.map Prod.fst := by
  rw [touchStore, List.map_map]
  apply List.map_congr_left
  intro p hp
  by_cases h : p.1 = sid
  · simp [Function.comp, h]
  · simp [Function.comp, h]

theorem keys_appendMsg (l : Store) (sid : String) (msg : Message) :
    (appendMsgStore l sid msg).map Prod.fst = l.map Prod.fst := by
  rw [appendMsgStore, List.map_map]
  apply List.map_congr_left
  intro p hp
  by_cases h : p.1 = sid
  · simp [Function.comp, h]
  · simp [Function.comp, h]

theorem WFStore_of_sublist {l' l : Store} (hsub : List.Sublist l' l) (hWF : WFStore l) :
    WFStore l' := List.Nodup.sublist (hsub.map Prod.fst) hWF

theorem WFStore_append_fresh {l : Store} {sid : String} {r : SessionRecord}
    (hWF : WFStore l) (hfresh : lookupRecord l sid = none) :
    WFStore (l ++ [(sid, r)]) := by
  rw [WFStore, List.map_append, List.nodup_append]
  refine ⟨hWF, by simp, ?_⟩
  intro a ha hb
  have hb' : a = sid := by simpa using hb
  subst hb'
  exact (lookupRecord_eq_none.mp hfresh) ha

theorem get_history_present {m : SessionManager} {sid : String} {now : Nat}
    {r : SessionRecord}
    (h : lookupRecord (clean_expired_sessions m now).sessions sid = some r) :
    get_history m sid now =
      ({ clean_expired_sessions m now with
          sessions := touchStore (clean_expired_sessions m now).sessions sid now },
        r.history) := by
  unfold get_history
  rw [h]

theorem get_history_absent {m : SessionManager} {sid : String} {now : Nat}
    (h : lookupRecord (clean_expired_sessions m now).sessions sid = none) :
    get_history m sid now = admit_new_session (clean_expired_sessions m now) sid now := by
  unfold get_history
  rw [h]

theorem WF_admit {m1 : SessionManager} {sid : String} {now : Nat}
    (hWF1 : WFStore m1.sessions) (h : lookupRecord m1.sessions sid = none) :
    WFStore (admit_new_session m1 sid now).1.sessions := by
  rw [admit_new_session]
  by_cases hcap : m1.max_sessions ≤ m1.sessions.length
  · rw [if_pos hcap]
    exact WFStore_append_fresh
      (WFStore_of_sublist (remove_oldest_sublist _) hWF1)
      (lookupRecord_none_of_sublist (remove_oldest_sublist _) h)
  · rw [if_neg hcap]
    exact WFStore_append_fresh hWF1 h

theorem WF_clean {m : SessionManager} {now : Nat} (hWF : WFStore m.sessions) :
    WFStore (clean_expired_sessions m now).sessions :=
  WFStore_of_sublist (List.filter_sublist _) hWF

theorem WF_get_history {m : SessionManager} {sid : String} {now : Nat}
    (hWF : WFStore m.sessions) : WFStore (get_history m sid now).1.sessions := by
  rcases h : lookupRecord (clean_expired_sessions m now).sessions sid with _ | r
  · rw [get_history_absent h]
    exact WF_admit (WF_clean hWF) h
  · rw [get_history_present h]
    show WFStore (touchStore (clean_expired_sessions m now).sessions sid now)
    rw [WFStore, keys_touch]
    exact WF_clean hWF

theorem processTurn_success_sessions (m : SessionManager) (sid content ai : String)
    (now : Nat) :
    (processTurn m sid content now (.success ai)).1.sessions =
      appendMsgStore
        (appendMsgStore (get_history m sid now).1.sessions sid ⟨Role.user, content⟩)
        sid ⟨Role.assistant, ai⟩ := rfl

theorem processTurn_success_snd (m : SessionManager) (sid content ai : String)
    (now : Nat) :
    (processTurn m sid content now (.success ai)).2 = chunk ai := rfl

theorem processTurn_failure_sessions (m : SessionManager) (sid content e : String)
    (now : Nat) :
    (processTurn m sid content now (.failure e)).1.sessions =
      appendMsgStore (get_history m sid now).1.sessions sid ⟨Role.user, content⟩ := rfl

theorem processTurn_failure_snd (m : SessionManager) (sid content e : String)
    (now : Nat) :
    (processTurn m sid content now (.failure e)).2 =
      ["Error processing request: " ++ e] := rfl

theorem admit_fields (m1 : SessionManager) (sid : String) (now : Nat) :
    (admit_new_session m1 sid now).1.expiry_hours = m1.expiry_hours ∧
      (admit_new_session m1 sid now).1.max_sessions = m1.max_sessions := by
  rw [admit_new_session]
  by_cases hcap : m1.max_sessions ≤ m1.sessions.length
  · rw [if_pos hcap]
    exact ⟨(remove_oldest_fields m1).1, (remove_oldest_fields m1).2⟩
  · rw [if_neg hcap]
    exact ⟨rfl, rfl⟩

theorem get_history_fields (m : SessionManager) (sid : String) (now : Nat) :
    (get_history m sid now).1.expiry_hours = m.expiry_hours ∧
      (get_history m sid now).1.max_sessions = m.max_sessions := by
  rcases h : lookupRecord (clean_expired_sessions m now).sessions sid with _ | r
  · rw [get_history_absent h]
    exact admit_fields _ sid now
  · rw [get_history_present h]
    exact ⟨rfl, rfl⟩

theorem processTurn_fields (m : SessionManager) (sid content : String) (now : Nat)
    (eng : EngineResult) :
    (processTurn m sid content now eng).1.expiry_hours = m.expiry_hours ∧
      (processTurn m sid content now eng).1.max_sessions = m.max_sessions := by
  cases eng with
  | success ai => exact get_history_fields m sid now
  | failure e => exact get_history_fields m sid now

theorem WF_processTurn {m : SessionManager} {sid content : String} {now : Nat}
    {eng : EngineResult} (hWF : WFStore m.sessions) :
    WFStore (processTurn m sid content now eng).1.sessions := by
  cases eng with
  | success ai =>
    rw [WFStore, processTurn_success_sessions, keys_appendMsg, keys_appendMsg]
    exact WF_get_history hWF
  | failure e =>
    rw [WFStore, processTurn_failure_sessions, keys_appendMsg]
    exact WF_get_history hWF

/-! Lemmas about get_history and processTurn behaviour. -/

theorem lookup_singleton_ne {sid s : String} {x : SessionRecord} (hs : s ≠ sid) :
    lookupRecord [(sid, x)] s = none := by
  rw [lookupRecord, if_neg (fun hc : sid = s => hs hc.symm)]
  rfl

theorem remove_oldest_sessions_eq {m : SessionManager} {q : String × SessionRecord}
    (hq : minByLastAccess m.sessions = some q) :
    (remove_oldest_session m).sessions =
      m.sessions.eraseP (fun p => decide (p.1 = q.1)) := by
  unfold remove_oldest_session
  rw [hq]

theorem remove_oldest_length {m : SessionManager} (h : m.sessions ≠ []) :
    (remove_oldest_session m).sessions.length = m.sessions.length - 1 := by
  rcases hq : minByLastAccess m.sessions with _ | q
  · exact absurd (minByLastAccess_eq_none.mp hq) h
  · rw [remove_oldest_sessions_eq hq]
    exact List.length_eraseP_of_mem (minByLastAccess_mem hq) (by simp)

theorem admit_snd (m1 : SessionManager) (sid : String) (now : Nat) :
    (admit_new_session m1 sid now).2 = [] := by
  rw [admit_new_session]
  by_cases hcap : m1.max_sessions ≤ m1.sessions.length
  · rw [if_pos hcap]
  · rw [if_neg hcap]

theorem admit_mem {m1 : SessionManager} {sid : String} {now : Nat}
    {p : String × SessionRecord}
    (hp : p ∈ (admit_new_session m1 sid now).1.sessions) :
    p ∈ m1.sessions ∨ p = (sid, ⟨[], now⟩) := by
  rw [admit_new_session] at hp
  by_cases hcap : m1.max_sessions ≤ m1.sessions.length
  · rw [if_pos hcap] at hp
    rcases List.mem_append.mp hp with h1 | h2
    · exact Or.inl ((remove_oldest_sublist m1).subset h1)
    · exact Or.inr (by simpa using h2)
  · rw [if_neg hcap] at hp
    rcases List.mem_append.mp hp with h1 | h2
    · exact Or.inl h1
    · exact Or.inr (by simpa using h2)

theorem lookup_admit_self {m1 : SessionManager} {sid : String} {now : Nat}
    (h : lookupRecord m1.sessions sid = none) :
    lookupRecord (admit_new_session m1 sid now).1.sessions sid = some ⟨[], now⟩ := by
  rw [admit_new_session]
  by_cases hcap : m1.max_sessions ≤ m1.sessions.length
  · rw [if_pos hcap]
    show lookupRecord ((remove_oldest_session m1).sessions ++ [(sid, (⟨[], now⟩ : SessionRecord))]) sid = _
    rw [lookupRecord_append_of_none
      (lookupRecord_none_of_sublist (remove_oldest_sublist m1) h)]
    rw [lookupRecord, if_pos rfl]
  · rw [if_neg hcap]
    show lookupRecord (m1.sessions ++ [(sid, (⟨[], now⟩ : SessionRecord))]) sid = _
    rw [lookupRecord_append_of_none h]
    rw [lookupRecord, if_pos rfl]

theorem lookup_admit_none {m1 : SessionManager} {sid s : String} {now : Nat}
    (hs : s ≠ sid) (h : lookupRecord m1.sessions s = none) :
    lookupRecord (admit_new_session m1 sid now).1.sessions s = none := by
  rw [admit_new_session]
  by_cases hcap : m1.max_sessions ≤ m1.sessions.length
  · rw [if_pos hcap]
    show lookupRecord ((remove_oldest_session m1).sessions ++ [(sid, (⟨[], now⟩ : SessionRecord))]) s = _
    rw [lookupRecord_append_of_none
      (lookupRecord_none_of_sublist (remove_oldest_sublist m1) h)]
    exact lookup_singleton_ne hs
  · rw [if_neg hcap]
    show lookupRecord (m1.sessions ++ [(sid, (⟨[], now⟩ : SessionRecord))]) s = _
    rw [lookupRecord_append_of_none h]
    exact lookup_singleton_ne hs

theorem admit_length {m1 : SessionManager} (sid : String) (now : Nat)
    (hmax : 1 ≤ m1.max_sessions) (hlen : m1.sessions.length ≤ m1.max_sessions) :
    (admit_new_session m1 sid now).1.sessions.length =
      min (m1.sessions.length + 1) m1.max_sessions := by
  rw [admit_new_session]
  by_cases hcap : m1.max_sessions ≤ m1.sessions.length
  · rw [if_pos hcap]
    show ((remove_oldest_session m1).sessions ++ [(sid, (⟨[], now⟩ : SessionRecord))]).length = _
    have hne : m1.sessions ≠ [] := by
      intro hnil
      rw [hnil] at hcap
      simp at hcap
      omega
    rw [List.length_append, remove_oldest_length hne]
    simp only [List.length_cons, List.length_nil]
    omega
  · rw [if_neg hcap]
    show (m1.sessions ++ [(sid, (⟨[], now⟩ : SessionRecord))]).length = _
    rw [List.length_append]
    simp only [List.length_cons, List.length_nil]
    omega

theorem get_history_self (m : SessionManager) (sid : String) (now : Nat) :
    lookupRecord (get_history m sid now).1.sessions sid =
      some ⟨(get_history m sid now).2, now⟩ := by
  rcases h : lookupRecord (clean_expired_sessions m now).sessions sid with _ | r
  · rw [get_history_absent h, lookup_admit_self h, admit_snd]
  · rw [get_history_present h]
    show lookupRecord (touchStore (clean_expired_sessions m now).sessions sid now) sid = _
    rw [lookupRecord_touch_self, h]
    rfl

theorem get_history_fresh {m : SessionManager} {sid : String} {now : Nat}
    (h : lookupRecord m.sessions sid = none) : (get_history m sid now).2 = [] := by
  have hclean : lookupRecord (clean_expired_sessions m now).sessions sid = none :=
    lookupRecord_filter_none _ h
  rw [get_history_absent hclean, admit_snd]

theorem get_history_frame {m : SessionManager} {sid s : String} {now : Nat}
    {r : SessionRecord} (hWF : WFStore m.sessions) (hs : s ≠ sid)
    (h : lookupRecord (get_history m sid now).1.sessions s = some r) :
    lookupRecord m.sessions s = some r := by
  have hsubc : List.Sublist (clean_expired_sessions m now).sessions m.sessions :=
    List.filter_sublist _
  rcases hl : lookupRecord (clean_expired_sessions m now).sessions sid with _ | r0
  · rw [get_history_absent hl, admit_new_session] at h
    by_cases hcap :
        (clean_expired_sessions m now).max_sessions ≤
          (clean_expired_sessions m now).sessions.length
    · rw [if_pos hcap] at h
      have h2 : lookupRecord
          ((remove_oldest_session (clean_expired_sessions m now)).sessions ++
            [(sid, (⟨[], now⟩ : SessionRecord))]) s = some r := h
      rcases lookupRecord_append_cases h2 with h3 | ⟨h3, h4⟩
      · exact lookupRecord_of_sublist
          ((remove_oldest_sublist _).trans hsubc) hWF h3
      · rw [lookup_singleton_ne hs] at h4
        exact absurd h4 (by simp)
    · rw [if_neg hcap] at h
      have h2 : lookupRecord
          ((clean_expired_sessions m now).sessions ++ [(sid, (⟨[], now⟩ : SessionRecord))]) s = some r := h
      rcases lookupRecord_append_cases h2 with h3 | ⟨h3, h4⟩
      · exact lookupRecord_of_sublist hsubc hWF h3
      · rw [lookup_singleton_ne hs] at h4
        exact absurd h4 (by simp)
  · rw [get_history_present hl] at h
    have h2 : lookupRecord
        (touchStore (clean_expired_sessions m now).sessions sid now) s = some r := h
    rw [lookupRecord_touch_ne hs] at h2
    exact lookupRecord_of_sublist hsubc hWF h2

theorem processTurn_frame {m : SessionManager} {sid c s : String} {now : Nat}
    {eng : EngineResult} {r : SessionRecord}
    (hWF : WFStore m.sessions) (hs : s ≠ sid)
    (h : lookupRecord (processTurn m sid c now eng).1.sessions s = some r) :
    lookupRecord m.sessions s = some r := by
  have hget : lookupRecord (get_history m sid now).1.sessions s = some r := by
    cases eng with
    | success ai =>
      rw [processTurn_success_sessions, lookupRecord_appendMsg_ne hs,
        lookupRecord_appendMsg_ne hs] at h
      exact h
    | failure e =>
      rw [processTurn_failure_sessions, lookupRecord_appendMsg_ne hs] at h
      exact h
  exact get_history_frame hWF hs hget

theorem get_history_length {m : SessionManager} {sid : String} {now : Nat}
    (hmax : 1 ≤ m.max_sessions) (hlen : m.sessions.length ≤ m.max_sessions) :
    (get_history m sid now).1.sessions.length ≤ m.max_sessions := by
  have hclean : (clean_expired_sessions m now).sessions.length ≤ m.sessions.length :=
    List.length_filter_le _ _
  rcases h : lookupRecord (clean_expired_sessions m now).sessions sid with _ | r
  · rw [get_history_absent h]
    have hmax1 : 1 ≤ (clean_expired_sessions m now).max_sessions := hmax
    have hlen1 : (clean_expired_sessions m now).sessions.length ≤
        (clean_expired_sessions m now).max_sessions := le_trans hclean hlen
    have hfin := admit_length sid now hmax1 hlen1
    rw [hfin]
    have hmax2 : (clean_expired_sessions m now).max_sessions = m.max_sessions := rfl
    rw [hmax2]
    omega
  · rw [get_history_present h]
    show (touchStore (clean_expired_sessions m now).sessions sid now).length ≤ _
    rw [touchStore, List.length_map]
    exact le_trans hclean hlen

theorem runGets_bound :
    ∀ (ops : List (String × Nat)) (m : SessionManager), 1 ≤ m.max_sessions →
      m.sessions.length ≤ m.max_sessions →
      (runGets m ops).sessions.length ≤ m.max_sessions := by
  intro ops
  induction ops with
  | nil => intro m _ h2; exact h2
  | cons op rest ih =>
    intro m h1 h2
    show (runGets (get_history m op.1 op.2).1 rest).sessions.length ≤ m.max_sessions
    have hfields := get_history_fields m op.1 op.2
    have h1' : 1 ≤ (get_history m op.1 op.2).1.max_sessions := by
      rw [hfields.2]
      exact h1
    have h2' : (get_history m op.1 op.2).1.sessions.length ≤
        (get_history m op.1 op.2).1.max_sessions := by
      rw [hfields.2]
      exact get_history_length h1 h2
    have h3 := ih (get_history m op.1 op.2).1 h1' h2'
    rw [hfields.2] at h3
    exact h3

theorem insertAll_length :
    ∀ (ids : List String) (m : SessionManager) (now : Nat), ids.Nodup →
      (∀ p ∈ m.sessions, p.2.last_access = now) →
      (∀ i ∈ ids, lookupRecord m.sessions i = none) →
      1 ≤ m.max_sessions → m.sessions.length ≤ m.max_sessions →
      (insertAll m ids now).sessions.length =
        min (m.sessions.length + ids.length) m.max_sessions := by
  intro ids
  induction ids with
  | nil =>
    intro m now _ _ _ _ hlen
    show m.sessions.length = min (m.sessions.length + List.length []) m.max_sessions
    simp only [List.length_nil]
    omega
  | cons i rest ih =>
    intro m now hnodup hla hfresh hmax hlen
    have hclean_eq : (clean_expired_sessions m now).sessions = m.sessions := by
      show m.sessions.filter _ = m.sessions
      apply List.filter_eq_self.mpr
      intro p hp
      rw [hla p hp, Nat.sub_self]
      simp
    have hlookup : lookupRecord (clean_expired_sessions m now).sessions i = none := by
      rw [hclean_eq]
      exact hfresh i (List.mem_cons_self i rest)
    have hstep : insertAll m (i :: rest) now =
        insertAll (get_history m i now).1 rest now := rfl
    have hgh : (get_history m i now).1 =
        (admit_new_session (clean_expired_sessions m now) i now).1 := by
      rw [get_history_absent hlookup]
    have hmax1 : 1 ≤ (clean_expired_sessions m now).max_sessions := hmax
    have hlen1 : (clean_expired_sessions m now).sessions.length ≤
        (clean_expired_sessions m now).max_sessions := by
      show (clean_expired_sessions m now).sessions.length ≤ m.max_sessions
      rw [hclean_eq]
      exact hlen
    have hlength : (get_history m i now).1.sessions.length =
        min (m.sessions.length + 1) m.max_sessions := by
      rw [hgh, admit_length i now hmax1 hlen1, hclean_eq]
      rfl
    have hla' : ∀ p ∈ (get_history m i now).1.sessions, p.2.last_access = now := by
      intro p hp
      rw [hgh] at hp
      rcases admit_mem hp with h1 | h2
      · rw [hclean_eq] at h1
        exact hla p h1
      · rw [h2]
    have hfresh' : ∀ j ∈ rest,
        lookupRecord (get_history m i now).1.sessions j = none := by
      intro j hj
      have hji : j ≠ i := by
        intro hcontra
        rw [hcontra] at hj
        exact (List.nodup_cons.mp hnodup).1 hj
      rw [hgh]
      apply lookup_admit_none hji
      rw [hclean_eq]
      exact hfresh j (List.mem_cons_of_mem i hj)
    have hmax' : 1 ≤ (get_history m i now).1.max_sessions := by
      rw [(get_history_fields m i now).2]
      exact hmax
    have hlen' : (get_history m i now).1.sessions.length ≤
        (get_history m i now).1.max_sessions := by
      rw [hlength, (get_history_fields m i now).2]
      omega
    have hnodup' : rest.Nodup := (List.nodup_cons.mp hnodup).2
    have hrec := ih (get_history m i now).1 now hnodup' hla' hfresh' hmax' hlen'
    rw [hstep, hrec, hlength, (get_history_fields m i now).2]
    simp only [List.length_cons]
    omega

/-! Claim theorems for the Session Store. -/

/-- C1 (amended: the bound requires max_sessions ≥ 1; a store constructed with
max_sessions = 0 still admits one session): for every sequence of get_history
operations on a store constructed with max_sessions = N ≥ 1 the number of
stored sessions stays at most N, and inserting N+1 distinct identifiers with
no time advancing leaves the store at size exactly N. -/
theorem C1_store_capacity :
    (∀ (D N : Nat) (ops : List (String × Nat)), 1 ≤ N →
      (runGets ⟨[], D, N⟩ ops).sessions.length ≤ N) ∧
    (∀ (D N now : Nat) (ids : List String), ids.Nodup → ids.length = N + 1 →
      1 ≤ N → (insertAll ⟨[], D, N⟩ ids now).sessions.length = N) := by
  constructor
  · intro D N ops hN
    exact runGets_bound ops ⟨[], D, N⟩ hN (by simp)
  · intro D N now ids hnodup hlen hN
    have h := insertAll_length ids ⟨[], D, N⟩ now hnodup (by simp)
      (fun i _ => rfl) hN (by simp)
    rw [h, hlen]
    show min (0 + (N + 1)) N = N
    omega

/-- C1 counterexample: with max_sessions = 0 a single get_history call leaves
the store at size 1, violating the claimed bound size ≤ max_sessions. -/
theorem C1_store_capacity_cx :
    ¬ ((runGets ⟨[], 24, 0⟩ [("a", 0)]).sessions.length ≤ 0) := by decide

/-- C1 witness: the amended theorem applied to a concrete store with
max_sessions = 2 and three distinct identifiers. -/
theorem C1_store_capacity_w :
    (runGets ⟨[], 24, 2⟩ [("a", 0), ("b", 0), ("c", 0)]).sessions.length ≤ 2 ∧
    (insertAll ⟨[], 24, 2⟩ ["x", "y", "z"] 0).sessions.length = 2 :=
  ⟨C1_store_capacity.1 24 2 [("a", 0), ("b", 0), ("c", 0)] (by decide),
   C1_store_capacity.2 24 2 0 ["x", "y", "z"] (by decide) (by decide) (by decide)⟩

/-- C2: when get_history sees an unseen identifier and the store, after the
expiry sweep, is still at capacity, exactly one record is removed, namely one
with the minimal last_access value, before the fresh session is appended; and
in the concrete scenario with max_sessions = 2 the sessions a, b created at
t = 0, a touched at t = 1h, and c created at t = 2h leave a and c stored and
b evicted. -/
theorem C2_evict_oldest :
    (∀ (m : SessionManager) (sid : String) (now : Nat),
      lookupRecord (clean_expired_sessions m now).sessions sid = none →
      (clean_expired_sessions m now).sessions.length = m.max_sessions →
      1 ≤ m.max_sessions →
      ∃ q, minByLastAccess (clean_expired_sessions m now).sessions = some q ∧
        q ∈ (clean_expired_sessions m now).sessions ∧
        (∀ p ∈ (clean_expired_sessions m now).sessions,
          q.2.last_access ≤ p.2.last_access) ∧
        (get_history m sid now).1.sessions =
          ((clean_expired_sessions m now).sessions.eraseP
            (fun p => decide (p.1 = q.1))) ++ [(sid, (⟨[], now⟩ : SessionRecord))] ∧
        (get_history m sid now).1.sessions.length = m.max_sessions) ∧
    (lookupRecord
        (runGets ⟨[], 24, 2⟩ [("a", 0), ("b", 0), ("a", 3600), ("c", 7200)]).sessions
        "b" = none ∧
      lookupRecord
        (runGets ⟨[], 24, 2⟩ [("a", 0), ("b", 0), ("a", 3600), ("c", 7200)]).sessions
        "a" = some ⟨[], 3600⟩ ∧
      lookupRecord
        (runGets ⟨[], 24, 2⟩ [("a", 0), ("b", 0), ("a", 3600), ("c", 7200)]).sessions
        "c" = some ⟨[], 7200⟩) := by
  constructor
  · intro m sid now h hcap hmax
    have hne : (clean_expired_sessions m now).sessions ≠ [] := by
      intro hnil
      rw [hnil] at hcap
      simp at hcap
      omega
    rcases hq : minByLastAccess (clean_expired_sessions m now).sessions with _ | q
    · exact absurd (minByLastAccess_eq_none.mp hq) hne
    · have hcap' : (clean_expired_sessions m now).max_sessions ≤
          (clean_expired_sessions m now).sessions.length := le_of_eq hcap.symm
      refine ⟨q, rfl, minByLastAccess_mem hq, minByLastAccess_min hq, ?_, ?_⟩
      · rw [get_history_absent h, admit_new_session, if_pos hcap']
        show (remove_oldest_session (clean_expired_sessions m now)).sessions ++
            [(sid, (⟨[], now⟩ : SessionRecord))] = _
        rw [remove_oldest_sessions_eq hq]
      · rw [get_history_absent h, admit_new_session, if_pos hcap']
        show ((remove_oldest_session (clean_expired_sessions m now)).sessions ++
            [(sid, (⟨[], now⟩ : SessionRecord))]).length = _
        rw [List.length_append, remove_oldest_length hne]
        simp only [List.length_cons, List.length_nil]
        omega
  · refine ⟨by decide, by decide, by decide⟩

/-- C2 witness: the general eviction theorem applied at the swept store of the
scenario, store [(a, 3600), (b, 0)] at capacity 2, admitting c at t = 7200. -/
theorem C2_evict_oldest_w :
    ∃ q, minByLastAccess
        (clean_expired_sessions ⟨[("a", ⟨[], 3600⟩), ("b", ⟨[], 0⟩)], 24, 2⟩
          7200).sessions = some q ∧
      q ∈ (clean_expired_sessions ⟨[("a", ⟨[], 3600⟩), ("b", ⟨[], 0⟩)], 24, 2⟩
          7200).sessions ∧
      (∀ p ∈ (clean_expired_sessions ⟨[("a", ⟨[], 3600⟩), ("b", ⟨[], 0⟩)], 24, 2⟩
          7200).sessions, q.2.last_access ≤ p.2.last_access) ∧
      (get_history ⟨[("a", ⟨[], 3600⟩), ("b", ⟨[], 0⟩)], 24, 2⟩ "c" 7200).1.sessions =
        ((clean_expired_sessions ⟨[("a", ⟨[], 3600⟩), ("b", ⟨[], 0⟩)], 24, 2⟩
          7200).sessions.eraseP (fun p => decide (p.1 = q.1))) ++
          [("c", (⟨[], 7200⟩ : SessionRecord))] ∧
      (get_history ⟨[("a", ⟨[], 3600⟩), ("b", ⟨[], 0⟩)], 24, 2⟩ "c" 7200).1.sessions.length =
        (⟨[("a", ⟨[], 3600⟩), ("b", ⟨[], 0⟩)], 24, 2⟩ : SessionManager).max_sessions :=
  C2_evict_oldest.1 ⟨[("a", ⟨[], 3600⟩), ("b", ⟨[], 0⟩)], 24, 2⟩ "c" 7200
    (by decide) (by decide) (by decide)

/-- C3 (amended: a non-expired session is guaranteed to remain present only
when the call does not evict it for capacity, which can happen only when an
unseen identifier is admitted to a store still at capacity after the sweep):
after any get_history call no stored record's age since last access exceeds
the expiry duration; a record of another identifier whose age exceeds the
expiry duration is absent afterwards; and a record of another identifier
touched strictly less than the expiry duration ago remains present unchanged
provided the accessed identifier survived the sweep or the swept store is
below capacity. -/
theorem C3_expiry_sweep :
    ∀ (m : SessionManager) (sid : String) (now : Nat), WFStore m.sessions →
      (∀ p ∈ (get_history m sid now).1.sessions,
        now - p.2.last_access ≤ m.expiry_seconds) ∧
      (∀ s, s ≠ sid → ∀ q, lookupRecord m.sessions s = some q →
        m.expiry_seconds < now - q.last_access →
        lookupRecord (get_history m sid now).1.sessions s = none) ∧
      (∀ s, s ≠ sid → ∀ q, lookupRecord m.sessions s = some q →
        now - q.last_access < m.expiry_seconds →
        (lookupRecord (clean_expired_sessions m now).sessions sid ≠ none ∨
          (clean_expired_sessions m now).sessions.length < m.max_sessions) →
        lookupRecord (get_history m sid now).1.sessions s = some q) := by
  intro m sid now hWF
  refine ⟨?_, ?_, ?_⟩
  · intro p hp
    rcases h : lookupRecord (clean_expired_sessions m now).sessions sid with _ | r
    · rw [get_history_absent h] at hp
      rcases admit_mem hp with h1 | h2
      · have h1' : p ∈ m.sessions.filter
            (fun p => decide (now - p.2.last_access ≤ m.expiry_seconds)) := h1
        exact of_decide_eq_true (List.mem_filter.mp h1').2
      · rw [h2]
        show now - now ≤ m.expiry_seconds
        rw [Nat.sub_self]
        exact Nat.zero_le _
    · rw [get_history_present h] at hp
      have hp' : p ∈ touchStore (clean_expired_sessions m now).sessions sid now := hp
      rw [touchStore] at hp'
      rcases List.mem_map.mp hp' with ⟨p0, hp0, rfl⟩
      have hfil : p0 ∈ m.sessions.filter
          (fun p => decide (now - p.2.last_access ≤ m.expiry_seconds)) := hp0
      have hage := of_decide_eq_true (List.mem_filter.mp hfil).2
      by_cases hc : p0.1 = sid
      · rw [if_pos hc]
        show now - now ≤ m.expiry_seconds
        rw [Nat.sub_self]
        exact Nat.zero_le _
      · rw [if_neg hc]
        exact hage
  · intro s hs q hq hexp
    have hdrop : lookupRecord (clean_expired_sessions m now).sessions s = none :=
      lookupRecord_filter_drop _ hWF hq
        (decide_eq_false (show ¬ (now - q.last_access ≤ m.expiry_seconds) by omega))
    rcases h : lookupRecord (clean_expired_sessions m now).sessions sid with _ | r
    · rw [get_history_absent h]
      exact lookup_admit_none hs hdrop
    · rw [get_history_present h]
      show lookupRecord
        (touchStore (clean_expired_sessions m now).sessions sid now) s = none
      rw [lookupRecord_touch_ne hs]
      exact hdrop
  · intro s hs q hq hlt hprov
    have hkeep : lookupRecord (clean_expired_sessions m now).sessions s = some q :=
      lookupRecord_filter_keep _ hq (decide_eq_true (Nat.le_of_lt hlt))
    rcases h : lookupRecord (clean_expired_sessions m now).sessions sid with _ | r
    · rcases hprov with hprov | hprov
      · exact absurd h hprov
      · have hcap : ¬ ((clean_expired_sessions m now).max_sessions ≤
            (clean_expired_sessions m now).sessions.length) := by
          have hprov' : (clean_expired_sessions m now).sessions.length <
              (clean_expired_sessions m now).max_sessions := hprov
          exact Nat.not_le.mpr hprov'
        rw [get_history_absent h, admit_new_session, if_neg hcap]
        show lookupRecord ((clean_expired_sessions m now).sessions ++
            [(sid, (⟨[], now⟩ : SessionRecord))]) s = some q
        exact lookupRecord_append_of_some hkeep
    · rw [get_history_present h]
      show lookupRecord
        (touchStore (clean_expired_sessions m now).sessions sid now) s = some q
      rw [lookupRecord_touch_ne hs]
      exact hkeep

/-- C3 counterexample: with max_sessions = 1 holding session a touched 1
second ago (far below the 24h expiry), get_history for the unseen session b
evicts a for capacity, so a session touched strictly less than the expiry
duration ago does not remain present. -/
theorem C3_expiry_sweep_cx :
    (1 : Nat) - 0 <
      (⟨[("a", ⟨[], 0⟩)], 24, 1⟩ : SessionManager).expiry_seconds ∧
    lookupRecord (get_history ⟨[("a", ⟨[], 0⟩)], 24, 1⟩ "b" 1).1.sessions "a" =
      none := by
  decide

/-- C3 witness: accessing the unseen identifier at t = 90000 on a roomy store
removes the record aged beyond 24h and keeps the fresh one unchanged. -/
theorem C3_expiry_sweep_w :
    lookupRecord (get_history ⟨[("old", ⟨[], 0⟩), ("young", ⟨[], 90000⟩)], 24, 10⟩
        "new" 90000).1.sessions "old" = none ∧
    lookupRecord (get_history ⟨[("old", ⟨[], 0⟩), ("young", ⟨[], 90000⟩)], 24, 10⟩
        "new" 90000).1.sessions "young" = some ⟨[], 90000⟩ :=
  ⟨(C3_expiry_sweep ⟨[("old", ⟨[], 0⟩), ("young", ⟨[], 90000⟩)], 24, 10⟩ "new" 90000
      (by decide)).2.1 "old" (by decide) ⟨[], 0⟩ (by decide) (by decide),
   (C3_expiry_sweep ⟨[("old", ⟨[], 0⟩), ("young", ⟨[], 90000⟩)], 24, 10⟩ "new" 90000
      (by decide)).2.2 "young" (by decide) ⟨[], 90000⟩ (by decide) (by decide)
      (Or.inr (by decide))⟩

/-- C7: when get_history is called with an identifier already present and not
expired, the call returns that session's stored history, refreshes only its
last_access to now, and for every other identifier a non-expired record is
kept unchanged while an expired record is removed — capacity eviction never
fires. -/
theorem C7_touch_frame :
    ∀ (m : SessionManager) (sid : String) (now : Nat) (r : SessionRecord),
      WFStore m.sessions → lookupRecord m.sessions sid = some r →
      now - r.last_access ≤ m.expiry_seconds →
      (get_history m sid now).2 = r.history ∧
      lookupRecord (get_history m sid now).1.sessions sid = some ⟨r.history, now⟩ ∧
      ∀ s, s ≠ sid → ∀ q, lookupRecord m.sessions s = some q →
        (now - q.last_access ≤ m.expiry_seconds →
          lookupRecord (get_history m sid now).1.sessions s = some q) ∧
        (m.expiry_seconds < now - q.last_access →
          lookupRecord (get_history m sid now).1.sessions s = none) := by
  intro m sid now r hWF hsid hle
  have hpres : lookupRecord (clean_expired_sessions m now).sessions sid = some r :=
    lookupRecord_filter_keep _ hsid (decide_eq_true hle)
  refine ⟨?_, ?_, ?_⟩
  · rw [get_history_present hpres]
  · rw [get_history_present hpres]
    show lookupRecord
      (touchStore (clean_expired_sessions m now).sessions sid now) sid = _
    rw [lookupRecord_touch_self, hpres]
    rfl
  · intro s hs q hq
    constructor
    · intro hqle
      have hkeep : lookupRecord (clean_expired_sessions m now).sessions s = some q :=
        lookupRecord_filter_keep _ hq (decide_eq_true hqle)
      rw [get_history_present hpres]
      show lookupRecord
        (touchStore (clean_expired_sessions m now).sessions sid now) s = some q
      rw [lookupRecord_touch_ne hs]
      exact hkeep
    · intro hqgt
      have hdrop : lookupRecord (clean_expired_sessions m now).sessions s = none :=
        lookupRecord_filter_drop _ hWF hq
          (decide_eq_false (show ¬ (now - q.last_access ≤ m.expiry_seconds) by omega))
      rw [get_history_present hpres]
      show lookupRecord
        (touchStore (clean_expired_sessions m now).sessions sid now) s = none
      rw [lookupRecord_touch_ne hs]
      exact hdrop

/-- C7 witness: touching the present non-expired session s at t = 100 returns
its stored history, refreshes its last_access, and leaves x untouched. -/
theorem C7_touch_frame_w :
    (get_history ⟨[("x", ⟨[], 0⟩), ("s", ⟨[⟨Role.user, "m1"⟩], 50⟩)], 24, 10⟩
        "s" 100).2 = [⟨Role.user, "m1"⟩] ∧
    lookupRecord (get_history ⟨[("x", ⟨[], 0⟩), ("s", ⟨[⟨Role.user, "m1"⟩], 50⟩)], 24, 10⟩
        "s" 100).1.sessions "s" = some ⟨[⟨Role.user, "m1"⟩], 100⟩ ∧
    lookupRecord (get_history ⟨[("x", ⟨[], 0⟩), ("s", ⟨[⟨Role.user, "m1"⟩], 50⟩)], 24, 10⟩
        "s" 100).1.sessions "x" = some ⟨[], 0⟩ :=
  ⟨(C7_touch_frame ⟨[("x", ⟨[], 0⟩), ("s", ⟨[⟨Role.user, "m1"⟩], 50⟩)], 24, 10⟩
      "s" 100 ⟨[⟨Role.user, "m1"⟩], 50⟩ (by decide) (by decide) (by decide)).1,
   (C7_touch_frame ⟨[("x", ⟨[], 0⟩), ("s", ⟨[⟨Role.user, "m1"⟩], 50⟩)], 24, 10⟩
      "s" 100 ⟨[⟨Role.user, "m1"⟩], 50⟩ (by decide) (by decide) (by decide)).2.1,
   ((C7_touch_frame ⟨[("x", ⟨[], 0⟩), ("s", ⟨[⟨Role.user, "m1"⟩], 50⟩)], 24, 10⟩
      "s" 100 ⟨[⟨Role.user, "m1"⟩], 50⟩ (by decide) (by decide) (by decide)).2.2
      "x" (by decide) ⟨[], 0⟩ (by decide)).1 (by decide)⟩

/-- C9: when get_history is called with an identifier that is present but
expired, the sweep deletes the whole record before the membership check, so
the call returns a brand-new empty history and the session is recreated with
last_access = now. -/
theorem C9_expired_recreated :
    ∀ (m : SessionManager) (sid : String) (now : Nat) (r : SessionRecord),
      WFStore m.sessions → lookupRecord m.sessions sid = some r →
      m.expiry_seconds < now - r.last_access →
      (get_history m sid now).2 = [] ∧
      lookupRecord (get_history m sid now).1.sessions sid = some ⟨[], now⟩ := by
  intro m sid now r hWF hsid hgt
  have hnone : lookupRecord (clean_expired_sessions m now).sessions sid = none :=
    lookupRecord_filter_drop _ hWF hsid
      (decide_eq_false (show ¬ (now - r.last_access ≤ m.expiry_seconds) by omega))
  constructor
  · rw [get_history_absent hnone, admit_snd]
  · rw [get_history_absent hnone]
    exact lookup_admit_self hnone

/-- C9 witness: a session whose record is 90000 seconds old (beyond the 24h
expiry) is recreated empty with last_access = now on its own access. -/
theorem C9_expired_recreated_w :
    (get_history ⟨[("s", ⟨[⟨Role.user, "old"⟩], 0⟩)], 24, 10⟩ "s" 90000).2 = [] ∧
    lookupRecord (get_history ⟨[("s", ⟨[⟨Role.user, "old"⟩], 0⟩)], 24, 10⟩
        "s" 90000).1.sessions "s" = some ⟨[], 90000⟩ :=
  C9_expired_recreated ⟨[("s", ⟨[⟨Role.user, "old"⟩], 0⟩)], 24, 10⟩ "s" 90000
    ⟨[⟨Role.user, "old"⟩], 0⟩ (by decide) (by decide) (by decide)

/-! Claim theorems for the Response Chunker. -/

/-- C5: concatenating, in order, all fragments the Response Chunker produces
for an input text reproduces that text exactly, with no characters dropped or
duplicated. -/
theorem C5_chunk_roundtrip (t : String) : String.join (chunk t) = t := by
  show ((chunkChars t.data []).map String.mk).foldl (fun r s => r ++ s) "" = t
  rw [foldl_append_mk, chunkChars_flatten]
  rfl

/-- C6: the chunker splits greedily left to right: every fragment except
possibly the final remainder is closed exactly by a sentence terminator at its
end or by its length reaching 80; in particular a 160-character input with no
terminator characters splits into exactly the two 80-character halves. -/
theorem C6_chunk_greedy (t : String) :
    (∀ f ∈ (chunkChars t.data []).dropLast,
      (∃ c, f.getLast? = some c ∧ isTerminator c = true) ∨ f.length = 80) ∧
    (t.length = 160 → (∀ c ∈ t.data, isTerminator c = false) →
      chunk t = [String.mk (t.data.take 80), String.mk (t.data.drop 80)] ∧
        ∀ f ∈ chunk t, f.length = 80) := by
  constructor
  · exact chunkChars_closed_front t.data [] (by simp)
  · intro hlen hterm
    have hdata : t.data.length = 160 := hlen
    have h1 : chunkChars t.data [] =
        (([] : List Char) ++ t.data.take 80) :: chunkChars (t.data.drop 80) [] := by
      have := chunkChars_noTerm_ge t.data [] (by simp) hterm (by omega)
      simpa using this
    have hdrop : (t.data.drop 80).length = 80 := by
      rw [List.length_drop]
      omega
    have hterm2 : ∀ c ∈ t.data.drop 80, isTerminator c = false := fun c hc =>
      hterm c (List.drop_subset 80 t.data hc)
    have h2 : chunkChars (t.data.drop 80) [] =
        (([] : List Char) ++ (t.data.drop 80).take 80) :: chunkChars ((t.data.drop 80).drop 80) [] := by
      have := chunkChars_noTerm_ge (t.data.drop 80) [] (by simp) hterm2 (by omega)
      simpa using this
    have h3 : (t.data.drop 80).take 80 = t.data.drop 80 :=
      List.take_of_length_le (by omega)
    have h4 : (t.data.drop 80).drop 80 = [] :=
      List.drop_eq_nil_of_le (by omega)
    have hchunks : chunkChars t.data [] = [t.data.take 80, t.data.drop 80] := by
      rw [h1, h2, h3, h4]
      simp [chunkChars]
    have hc : chunk t = [String.mk (t.data.take 80), String.mk (t.data.drop 80)] := by
      rw [chunk, hchunks]
      rfl
    refine ⟨hc, ?_⟩
    intro f hf
    rw [hc] at hf
    have htake : (t.data.take 80).length = 80 := by
      rw [List.length_take]
      omega
    rcases List.mem_cons.mp hf with rfl | hf
    · exact htake
    · rcases List.mem_cons.mp hf with rfl | hf
      · exact hdrop
      · simp at hf

/-- C10: every fragment the chunking loop produces is non-empty and at most 80
characters long, and the empty input yields the empty fragment sequence. -/
theorem C10_frag_bounds :
    (∀ t : String, ∀ f ∈ chunk t, f ≠ "" ∧ f.length ≤ 80) ∧ chunk "" = [] := by
  constructor
  · intro t f hf
    rw [chunk] at hf
    rcases List.mem_map.mp hf with ⟨cs, hcs, rfl⟩
    have h := chunkChars_frag_bounds t.data [] (by simp) cs hcs
    refine ⟨?_, h.2⟩
    intro hcontra
    have : cs = ([] : List Char) := congrArg String.data hcontra
    exact h.1 this
  · rfl

/-- C4: a turn whose reasoning-engine invocation fails emits exactly the one
error fragment prefixed by the text Error processing request (not split by the
chunker); the user message appended before the invocation stays recorded and
no assistant message is appended, so a fresh session ends the turn with
exactly that one user message in its history. -/
theorem C4_error_turn :
    ∀ (m : SessionManager) (sid content e : String) (now : Nat),
      (processTurn m sid content now (.failure e)).2 =
        ["Error processing request: " ++ e] ∧
      lookupRecord (processTurn m sid content now (.failure e)).1.sessions sid =
        some ⟨(get_history m sid now).2 ++ [⟨Role.user, content⟩], now⟩ ∧
      (lookupRecord m.sessions sid = none →
        lookupRecord (processTurn m sid content now (.failure e)).1.sessions sid =
          some ⟨[⟨Role.user, content⟩], now⟩) := by
  intro m sid content e now
  refine ⟨processTurn_failure_snd m sid content e now, ?_, ?_⟩
  · rw [processTurn_failure_sessions, lookupRecord_appendMsg_self, get_history_self]
    rfl
  · intro hfresh
    rw [processTurn_failure_sessions, lookupRecord_appendMsg_self, get_history_self,
      get_history_fresh hfresh]
    rfl

/-- C4 witness: the failing turn on the fresh session s1 sending the message
Book a meeting leaves exactly one user message recorded and emits the single
error fragment. -/
theorem C4_error_turn_w :
    (processTurn ⟨[], 24, 1000⟩ "s1" "Book a meeting" 0
        (.failure "TransportError")).2 =
      ["Error processing request: " ++ "TransportError"] ∧
    lookupRecord (processTurn ⟨[], 24, 1000⟩ "s1" "Book a meeting" 0
        (.failure "TransportError")).1.sessions "s1" =
      some ⟨[⟨Role.user, "Book a meeting"⟩], 0⟩ :=
  ⟨(C4_error_turn ⟨[], 24, 1000⟩ "s1" "Book a meeting" "TransportError" 0).1,
   (C4_error_turn ⟨[], 24, 1000⟩ "s1" "Book a meeting" "TransportError" 0).2.2 rfl⟩

/-- C8 (amended: the four-message history additionally requires the second
turn to start within the expiry window of the first, since otherwise the sweep
deletes the session in between): two successful sequential turns on a fresh
session s2 leave its history exactly user1, assistant1, user2, assistant2, and
any other identifier still stored afterwards has its record unchanged. -/
theorem C8_turn_order :
    ∀ (m : SessionManager) (s2 c1 a1 c2 a2 : String) (t1 t2 : Nat),
      WFStore m.sessions → lookupRecord m.sessions s2 = none →
      t1 ≤ t2 → t2 - t1 ≤ m.expiry_seconds →
      lookupRecord (processTurn (processTurn m s2 c1 t1 (.success a1)).1 s2 c2 t2
          (.success a2)).1.sessions s2 =
        some ⟨[⟨Role.user, c1⟩, ⟨Role.assistant, a1⟩, ⟨Role.user, c2⟩,
          ⟨Role.assistant, a2⟩], t2⟩ ∧
      (∀ s, s ≠ s2 → ∀ r,
        lookupRecord (processTurn (processTurn m s2 c1 t1 (.success a1)).1 s2 c2 t2
            (.success a2)).1.sessions s = some r →
        lookupRecord m.sessions s = some r) := by
  intro m s2 c1 a1 c2 a2 t1 t2 hWF hfresh ht12 hexp
  have hWF1 : WFStore (processTurn m s2 c1 t1 (.success a1)).1.sessions :=
    WF_processTurn hWF
  have hm1 : lookupRecord (processTurn m s2 c1 t1 (.success a1)).1.sessions s2 =
      some ⟨[⟨Role.user, c1⟩, ⟨Role.assistant, a1⟩], t1⟩ := by
    rw [processTurn_success_sessions, lookupRecord_appendMsg_self,
      lookupRecord_appendMsg_self, get_history_self, get_history_fresh hfresh]
    rfl
  have hexp1 : (processTurn m s2 c1 t1 (.success a1)).1.expiry_seconds =
      m.expiry_seconds := by
    show (processTurn m s2 c1 t1 (.success a1)).1.expiry_hours * 3600 =
      m.expiry_hours * 3600
    rw [(processTurn_fields m s2 c1 t1 (.success a1)).1]
  have harg : t2 - t1 ≤ (processTurn m s2 c1 t1 (.success a1)).1.expiry_seconds := by
    rw [hexp1]
    exact hexp
  have hpres2 : lookupRecord
      (clean_expired_sessions (processTurn m s2 c1 t1 (.success a1)).1 t2).sessions
      s2 = some ⟨[⟨Role.user, c1⟩, ⟨Role.assistant, a1⟩], t1⟩ :=
    lookupRecord_filter_keep _ hm1 (decide_eq_true harg)
  constructor
  · rw [processTurn_success_sessions, lookupRecord_appendMsg_self,
      lookupRecord_appendMsg_self, get_history_self]
    have hsnd : (get_history (processTurn m s2 c1 t1 (.success a1)).1 s2 t2).2 =
        [⟨Role.user, c1⟩, ⟨Role.assistant, a1⟩] := by
      rw [get_history_present hpres2]
    rw [hsnd]
    rfl
  · intro s hs r hr
    exact processTurn_frame hWF hs (processTurn_frame hWF1 hs hr)

/-- C8 counterexample: two successful sequential turns on session s2, the
second starting 90000 seconds (beyond the 24h expiry) after the first, leave
only the second turn's two messages in the history, not the four messages the
claim states. -/
theorem C8_turn_order_cx :
    lookupRecord (processTurn (processTurn ⟨[], 24, 1000⟩ "s2" "hi" 0
        (.success "ok")).1 "s2" "again" 90000 (.success "ok2")).1.sessions "s2" =
      some ⟨[⟨Role.user, "again"⟩, ⟨Role.assistant, "ok2"⟩], 90000⟩ ∧
    ¬ (lookupRecord (processTurn (processTurn ⟨[], 24, 1000⟩ "s2" "hi" 0
        (.success "ok")).1 "s2" "again" 90000 (.success "ok2")).1.sessions "s2" =
      some ⟨[⟨Role.user, "hi"⟩, ⟨Role.assistant, "ok"⟩, ⟨Role.user, "again"⟩,
        ⟨Role.assistant, "ok2"⟩], 90000⟩) := by
  decide

/-- C8 witness: two successful turns ten seconds apart on the fresh session s2
accumulate the four messages in order and leave the bystander session x
unchanged. -/
theorem C8_turn_order_w :
    lookupRecord (processTurn (processTurn ⟨[("x", ⟨[], 5⟩)], 24, 1000⟩ "s2"
        "hello" 10 (.success "Hi.")).1 "s2" "book" 20
        (.success "Done.")).1.sessions "s2" =
      some ⟨[⟨Role.user, "hello"⟩, ⟨Role.assistant, "Hi."⟩, ⟨Role.user, "book"⟩,
        ⟨Role.assistant, "Done."⟩], 20⟩ ∧
    lookupRecord (⟨[("x", ⟨[], 5⟩)], 24, 1000⟩ : SessionManager).sessions "x" =
      some ⟨[], 5⟩ :=
  ⟨(C8_turn_order ⟨[("x", ⟨[], 5⟩)], 24, 1000⟩ "s2" "hello" "Hi." "book" "Done."
      10 20 (by decide) (by decide) (by decide) (by decide)).1,
   (C8_turn_order ⟨[("x", ⟨[], 5⟩)], 24, 1000⟩ "s2" "hello" "Hi." "book" "Done."
      10 20 (by decide) (by decide) (by decide) (by decide)).2 "x" (by decide)
      ⟨[], 5⟩ (by decide)⟩

set_option maxRecDepth 8000 in
/-- C6 witness: the 160-character terminator-free input of letter a splits
into exactly its two 80-character halves. -/
theorem C6_chunk_greedy_w :
    chunk (String.mk (List.replicate 160 'a')) =
      [String.mk ((String.mk (List.replicate 160 'a')).data.take 80),
       String.mk ((String.mk (List.replicate 160 'a')).data.drop 80)] :=
  ((C6_chunk_greedy (String.mk (List.replicate 160 'a'))).2 (by decide) (by decide)).1

/-- C10 witness: the two-character input ab yields itself as a fragment, which
is non-empty and within the 80-character bound. -/
theorem C10_frag_bounds_w : "ab" ≠ "" ∧ "ab".length ≤ 80 :=
  C10_frag_bounds.1 "ab" "ab" (by decide)

end CalChat
